import Mathlib

/-!
Verification development for the incremental dependency-graph engine
(`src/core/debounce.ts`, class `DependencyGraph`) and the grammar-backed
parser service (`src/core/TreeSitterParser.ts` and its cache-owning
variant found in the repository).

The TypeScript `Map<string, Set<string>>` adjacency maps are embedded as
functions `String → Option (Finset String)`: `none` models "not a key of
the map", `some s` models an entry holding the set `s`.  Path
normalization through the editor URI helper is the identity in this
model (all claims treat paths as opaque identities).
-/

namespace DepGraphSpec

/-- Graph store of `DependencyGraph`: `dependencyMap` is the forward map
(file → set of files it imports), `dependentMap` is the backward map
(file → set of files that import it). -/
structure DepGraph where
  dependencyMap : String → Option (Finset String)
  dependentMap : String → Option (Finset String)

/-- The graph state before any file has been processed. -/
def emptyGraph : DepGraph :=
  { dependencyMap := fun _ => none
    dependentMap := fun _ => none }

/-- Accessor `getDependencies`: `this.dependencyMap.get(filePath) || new Set()`. -/
def getDependencies (g : DepGraph) (filePath : String) : Finset String :=
  (g.dependencyMap filePath).getD ∅

/-- Accessor `getDependents`: `this.dependentMap.get(filePath) || new Set()`. -/
def getDependents (g : DepGraph) (filePath : String) : Finset String :=
  (g.dependentMap filePath).getD ∅

/-- Embeds `DependencyGraph.removeFileEdges`: for every B in the old
forward entry of `filePath`, delete `filePath` from the backward entry
of B (dropping the entry entirely when it becomes empty), then delete
the forward entry of `filePath`. -/
def removeFileEdges (g : DepGraph) (filePath : String) : DepGraph :=
  let oldDeps := (g.dependencyMap filePath).getD ∅
  { dependencyMap := fun k => if k = filePath then none else g.dependencyMap k
    dependentMap := fun b =>
      if b ∈ oldDeps then
        match g.dependentMap b with
        | none => none
        | some s => if s.erase filePath = ∅ then none else some (s.erase filePath)
      else g.dependentMap b }

/-- Embeds the edge-install tail of `DependencyGraph.processFile`
(lines writing `dependencyMap.set` and growing the backward entries):
the forward entry of `filePath` becomes `deps`, and `filePath` is added
to the backward entry of every member of `deps` (creating the entry
when absent). -/
def installEdges (g : DepGraph) (filePath : String) (deps : Finset String) : DepGraph :=
  { dependencyMap := fun k => if k = filePath then some deps else g.dependencyMap k
    dependentMap := fun b =>
      if b ∈ deps then some (insert filePath ((g.dependentMap b).getD ∅))
      else g.dependentMap b }

/-- The edge-replacement operation of the spec (`setEdges`): exactly
what `processFile` performs on a successfully parsed file — erase the
previous edges, then install the new resolved dependency set. -/
def setEdges (g : DepGraph) (filePath : String) (deps : Finset String) : DepGraph :=
  installEdges (removeFileEdges g filePath) filePath deps

/-- Embeds `DependencyGraph.removeFile` (the delete pipeline,
`removeNode` of the spec): `removeFileEdges` plus discarding the
backward entry of the file itself.  The source guards the delete with a
presence check; deleting unconditionally is observably identical. -/
def removeFile (g : DepGraph) (filePath : String) : DepGraph :=
  let g1 := removeFileEdges g filePath
  { dependencyMap := g1.dependencyMap
    dependentMap := fun b => if b = filePath then none else g1.dependentMap b }

/-- Outcome handed to the resolution callback of `enhanced-resolve`:
either an error, or a possibly-absent file path (`(err, filepath)`). -/
inductive RawResolve where
  | err
  | ok (filepath : Option String)
deriving DecidableEq

/-- A resolver instance: context directory and request, to a callback outcome. -/
def Resolver := String → String → RawResolve

/-- Embeds `DependencyGraph.resolvePath`: `null` when no resolver is
installed, `null` when the callback reports an error or an empty
filepath, otherwise the resolved absolute path (URI normalization is
the identity here). -/
def resolvePath (resolver : Option Resolver) (contextDir request : String) : Option String :=
  match resolver with
  | none => none
  | some r =>
    match r contextDir request with
    | RawResolve.err => none
    | RawResolve.ok none => none
    | RawResolve.ok (some fp) => some fp

/-- Embeds `DependencyGraph.processFile`.  `read` is the outcome of
`fs.readFileSync` (`none` models a thrown read error), `extract` is the
outcome of `TreeSitterParser.extractImports` on the content (`none`
models a thrown extraction error, `some sources` a returned list), and
`dirname` stands for `path.dirname`.  The source first handles a failed
read as a deletion, then erases the old edges, then extracts, resolves
every source (dropping unresolved ones), and installs the new set. -/
def processFile (g : DepGraph) (filePath : String) (read : Option String)
    (extract : String → Option (List String)) (resolver : Option Resolver)
    (dirname : String → String) : DepGraph :=
  match read with
  | none => removeFile g filePath
  | some content =>
    let g1 := removeFileEdges g filePath
    match extract content with
    | none => g1
    | some importSources =>
      let resolvedDeps :=
        (importSources.filterMap fun s => resolvePath resolver (dirname filePath) s).toFinset
      installEdges g1 filePath resolvedDeps

/-- Edge-replacement operations of claim C1: `setEdges` (the install
performed by `processFile` on success) and `removeEdgesFrom`. -/
inductive GraphOp where
  | set (filePath : String) (deps : Finset String)
  | removeFrom (filePath : String)

/-- Applies one `GraphOp` to a graph. -/
def applyOp (g : DepGraph) : GraphOp → DepGraph
  | GraphOp.set f deps => setEdges g f deps
  | GraphOp.removeFrom f => removeFileEdges g f

/-- Runs a sequence of edge-replacement operations from the empty graph. -/
def runOps (ops : List GraphOp) : DepGraph :=
  ops.foldl applyOp emptyGraph

/-- Bidirectional consistency (Invariant I1). -/
def Bidir (g : DepGraph) : Prop :=
  ∀ A B : String, B ∈ getDependencies g A ↔ A ∈ getDependents g B

theorem getDeps_removeFileEdges (g : DepGraph) (f A : String) :
    getDependencies (removeFileEdges g f) A =
      if A = f then ∅ else getDependencies g A := by
  unfold getDependencies removeFileEdges
  by_cases h : A = f <;> simp [h]

theorem getDepts_removeFileEdges (g : DepGraph) (f B : String) :
    getDependents (removeFileEdges g f) B =
      if B ∈ getDependencies g f then (getDependents g B).erase f
      else getDependents g B := by
  unfold getDependents getDependencies removeFileEdges
  by_cases h : B ∈ (g.dependencyMap f).getD ∅
  · simp only [h, if_pos, if_true]
    cases hd : g.dependentMap B with
    | none => simp
    | some s =>
      by_cases he : s.erase f = ∅ <;> simp [he]
  · simp [h]

theorem getDeps_installEdges (g : DepGraph) (f : String) (deps : Finset String) (A : String) :
    getDependencies (installEdges g f deps) A =
      if A = f then deps else getDependencies g A := by
  unfold getDependencies installEdges
  by_cases h : A = f <;> simp [h]

theorem getDepts_installEdges (g : DepGraph) (f : String) (deps : Finset String) (B : String) :
    getDependents (installEdges g f deps) B =
      if B ∈ deps then insert f (getDependents g B) else getDependents g B := by
  unfold getDependents installEdges
  by_cases h : B ∈ deps <;> simp [h]

theorem bidir_removeFileEdges (g : DepGraph) (f : String) (hg : Bidir g) :
    Bidir (removeFileEdges g f) := by
  intro A B
  rw [getDeps_removeFileEdges, getDepts_removeFileEdges]
  by_cases hA : A = f
  · subst hA
    rw [if_pos rfl]
    constructor
    · intro h
      exact absurd h (Finset.not_mem_empty B)
    · intro h
      by_cases hB : B ∈ getDependencies g A
      · rw [if_pos hB] at h
        exact absurd rfl (Finset.ne_of_mem_erase h)
      · rw [if_neg hB] at h
        exact absurd ((hg A B).mpr h) hB
  · rw [if_neg hA]
    by_cases hB : B ∈ getDependencies g f
    · rw [if_pos hB, Finset.mem_erase]
      constructor
      · intro h
        exact ⟨hA, (hg A B).mp h⟩
      · intro h
        exact (hg A B).mpr h.2
    · rw [if_neg hB]
      exact hg A B

theorem bidir_installEdges (g : DepGraph) (f : String) (deps : Finset String)
    (hg : Bidir g) (hf : getDependencies g f = ∅) :
    Bidir (installEdges g f deps) := by
  intro A B
  rw [getDeps_installEdges, getDepts_installEdges]
  by_cases hA : A = f
  · subst hA
    rw [if_pos rfl]
    by_cases hB : B ∈ deps
    · simp [hB]
    · rw [if_neg hB]
      constructor
      · intro h
        exact absurd h hB
      · intro h
        have hBf := (hg A B).mpr h
        rw [hf] at hBf
        exact absurd hBf (Finset.not_mem_empty B)
  · rw [if_neg hA]
    by_cases hB : B ∈ deps
    · rw [if_pos hB, Finset.mem_insert]
      constructor
      · intro h
        exact Or.inr ((hg A B).mp h)
      · intro h
        cases h with
        | inl h => exact absurd h hA
        | inr h => exact (hg A B).mpr h
    · rw [if_neg hB]
      exact hg A B

theorem bidir_setEdges (g : DepGraph) (f : String) (deps : Finset String) (hg : Bidir g) :
    Bidir (setEdges g f deps) := by
  apply bidir_installEdges _ _ _ (bidir_removeFileEdges g f hg)
  rw [getDeps_removeFileEdges, if_pos rfl]

theorem bidir_emptyGraph : Bidir emptyGraph := by
  intro A B
  simp [getDependencies, getDependents, emptyGraph]

theorem bidir_foldl (ops : List GraphOp) :
    ∀ g : DepGraph, Bidir g → Bidir (ops.foldl applyOp g) := by
  induction ops with
  | nil => intro g hg; exact hg
  | cons op rest ih =>
    intro g hg
    apply ih
    cases op with
    | set f deps => exact bidir_setEdges g f deps hg
    | removeFrom f => exact bidir_removeFileEdges g f hg

/-- C1: for every graph reachable from the empty graph by any sequence
of edge-replacement (`setEdges`, as performed by `processFile`) and
`removeFileEdges` operations, and for all files A and B, B is a member
of the forward entry of A if and only if A is a member of the backward
entry of B. -/
theorem bidirectional_consistency (ops : List GraphOp) (A B : String) :
    B ∈ getDependencies (runOps ops) A ↔ A ∈ getDependents (runOps ops) B :=
  bidir_foldl ops emptyGraph bidir_emptyGraph A B

/-- Witness for C1: a concrete reachable graph in which the equivalence
is checked at concrete files. -/
theorem bidirectional_consistency_witness :
    "a.ts" ∈
        getDependencies (runOps [GraphOp.set "a.ts" {"b.ts"}, GraphOp.set "b.ts" {"c.ts"}]) "a.ts" ↔
      "a.ts" ∈
        getDependents (runOps [GraphOp.set "a.ts" {"b.ts"}, GraphOp.set "b.ts" {"c.ts"}]) "a.ts" :=
  bidirectional_consistency [GraphOp.set "a.ts" {"b.ts"}, GraphOp.set "b.ts" {"c.ts"}] "a.ts" "a.ts"

/-- Full event alphabet of the graph store, for the implicit invariant
of claim C9: a complete `processFile` run (any outcome), a bare
`removeFileEdges`, and a `removeFile`. -/
inductive FileEvent where
  | proc (filePath : String) (read : Option String)
      (extract : String → Option (List String)) (resolver : Option Resolver)
      (dirname : String → String)
  | removeEdges (filePath : String)
  | remove (filePath : String)

/-- Applies one `FileEvent` to a graph. -/
def applyEvent (g : DepGraph) : FileEvent → DepGraph
  | FileEvent.proc f r e res d => processFile g f r e res d
  | FileEvent.removeEdges f => removeFileEdges g f
  | FileEvent.remove f => removeFile g f

/-- Runs a sequence of file events from the empty graph. -/
def runEvents (evs : List FileEvent) : DepGraph :=
  evs.foldl applyEvent emptyGraph

/-- Backward entries are never the empty set. -/
def BackNonempty (g : DepGraph) : Prop :=
  ∀ B : String, g.dependentMap B ≠ some ∅

theorem backNonempty_removeFileEdges (g : DepGraph) (f : String)
    (hg : BackNonempty g) : BackNonempty (removeFileEdges g f) := by
  intro B
  unfold removeFileEdges
  simp only
  by_cases hB : B ∈ (g.dependencyMap f).getD ∅
  · rw [if_pos hB]
    cases hd : g.dependentMap B with
    | none => simp
    | some s =>
      show (if s.erase f = ∅ then none else some (s.erase f)) ≠ some ∅
      by_cases he : s.erase f = ∅
      · simp [he]
      · rw [if_neg he]
        intro heq
        exact he (Option.some.inj heq)
  · rw [if_neg hB]
    exact hg B

theorem backNonempty_installEdges (g : DepGraph) (f : String) (deps : Finset String)
    (hg : BackNonempty g) : BackNonempty (installEdges g f deps) := by
  intro B
  unfold installEdges
  simp only
  by_cases hB : B ∈ deps
  · rw [if_pos hB]
    simp only [ne_eq, Option.some.injEq]
    exact Finset.insert_ne_empty f _
  · rw [if_neg hB]
    exact hg B

theorem backNonempty_removeFile (g : DepGraph) (f : String)
    (hg : BackNonempty g) : BackNonempty (removeFile g f) := by
  intro B
  unfold removeFile
  simp only
  by_cases hB : B = f
  · simp [hB]
  · rw [if_neg hB]
    exact backNonempty_removeFileEdges g f hg B

theorem backNonempty_processFile (g : DepGraph) (f : String) (read : Option String)
    (extract : String → Option (List String)) (resolver : Option Resolver)
    (dirname : String → String) (hg : BackNonempty g) :
    BackNonempty (processFile g f read extract resolver dirname) := by
  cases read with
  | none => exact backNonempty_removeFile g f hg
  | some content =>
    cases hx : extract content with
    | none =>
      simp only [processFile, hx]
      exact backNonempty_removeFileEdges g f hg
    | some importSources =>
      simp only [processFile, hx]
      exact backNonempty_installEdges _ _ _ (backNonempty_removeFileEdges g f hg)

theorem backNonempty_foldl (evs : List FileEvent) :
    ∀ g : DepGraph, BackNonempty g → BackNonempty (evs.foldl applyEvent g) := by
  induction evs with
  | nil => intro g hg; exact hg
  | cons ev rest ih =>
    intro g hg
    apply ih
    cases ev with
    | proc f r e res d => exact backNonempty_processFile g f r e res d hg
    | removeEdges f => exact backNonempty_removeFileEdges g f hg
    | remove f => exact backNonempty_removeFile g f hg

theorem backNonempty_runEvents (evs : List FileEvent) : BackNonempty (runEvents evs) :=
  backNonempty_foldl evs emptyGraph (by intro B; simp [emptyGraph])

/-- C9: on every graph reachable by `processFile`, `removeFileEdges`
and `removeFile`, the backward map never holds an empty entry, and
`getDependents` returns the empty set exactly for the files that are
not keys of the backward map. -/
theorem dependents_entry_nonempty (evs : List FileEvent) (F : String) :
    (runEvents evs).dependentMap F ≠ some ∅ ∧
      (getDependents (runEvents evs) F = ∅ ↔ (runEvents evs).dependentMap F = none) := by
  refine ⟨backNonempty_runEvents evs F, ?_⟩
  cases hd : (runEvents evs).dependentMap F with
  | none => simp [getDependents, hd]
  | some s =>
    have hs : s ≠ ∅ := by
      intro he
      exact backNonempty_runEvents evs F (he ▸ hd)
    simp [getDependents, hd, hs]

/-- Witness for C9 at a concrete reachable graph and file. -/
theorem dependents_entry_nonempty_witness :
    (runEvents [FileEvent.removeEdges "a.ts"]).dependentMap "b.ts" ≠ some ∅ ∧
      (getDependents (runEvents [FileEvent.removeEdges "a.ts"]) "b.ts" = ∅ ↔
        (runEvents [FileEvent.removeEdges "a.ts"]).dependentMap "b.ts" = none) :=
  dependents_entry_nonempty [FileEvent.removeEdges "a.ts"] "b.ts"

/-- C4: `removeFile` deletes the forward and backward entries of the
removed file and deletes the file from the backward entries of its
former dependencies, while leaving the forward entry of every other
file unchanged (so a dependent that listed the file still lists it). -/
theorem removeFile_frame (g : DepGraph) (f : String) :
    (removeFile g f).dependencyMap f = none ∧
      (removeFile g f).dependentMap f = none ∧
      (∀ B, B ∈ getDependencies g f → f ∉ getDependents (removeFile g f) B) ∧
      (∀ D, D ≠ f → (removeFile g f).dependencyMap D = g.dependencyMap D) ∧
      (∀ D, D ≠ f → getDependencies (removeFile g f) D = getDependencies g D) := by
  refine ⟨?_, ?_, ?_, ?_, ?_⟩
  · simp [removeFile, removeFileEdges]
  · simp [removeFile]
  · intro B hB
    unfold getDependents removeFile
    simp only
    by_cases hBf : B = f
    · simp [hBf]
    · rw [if_neg hBf]
      have h := getDepts_removeFileEdges g f B
      unfold getDependents at h
      rw [h, if_pos hB]
      exact Finset.not_mem_erase f _
  · intro D hD
    simp [removeFile, removeFileEdges, hD]
  · intro D hD
    simp [getDependencies, removeFile, removeFileEdges, hD]

/-- Witness for C4: frame at concrete input, with a concrete graph in
which "d.ts" lists "f.ts" and still does after removing "f.ts". -/
theorem removeFile_frame_witness :
    (removeFile (setEdges emptyGraph "d.ts" {"f.ts"}) "f.ts").dependencyMap "d.ts" =
        (setEdges emptyGraph "d.ts" {"f.ts"}).dependencyMap "d.ts" ∧
      getDependencies (removeFile (setEdges emptyGraph "d.ts" {"f.ts"}) "f.ts") "d.ts" =
        getDependencies (setEdges emptyGraph "d.ts" {"f.ts"}) "d.ts" :=
  ⟨(removeFile_frame (setEdges emptyGraph "d.ts" {"f.ts"}) "f.ts").2.2.2.1 "d.ts" (by decide),
   (removeFile_frame (setEdges emptyGraph "d.ts" {"f.ts"}) "f.ts").2.2.2.2 "d.ts" (by decide)⟩

/-- C6: a failed read (`fs.readFileSync` throws) makes `processFile`
return normally with the exact graph produced by the delete pipeline
`removeFile`. -/
theorem processFile_read_failure_is_removeFile (g : DepGraph) (f : String)
    (extract : String → Option (List String)) (resolver : Option Resolver)
    (dirname : String → String) :
    processFile g f none extract resolver dirname = removeFile g f :=
  rfl

/-- C10: the query accessors return the empty set (never an absent
value) for any path that is not a key of the corresponding adjacency
map; both accessors are plain lookups and leave the graph untouched. -/
theorem query_default_empty (g : DepGraph) (f : String) :
    (g.dependencyMap f = none → getDependencies g f = ∅) ∧
      (g.dependentMap f = none → getDependents g f = ∅) := by
  constructor
  · intro h
    simp [getDependencies, h]
  · intro h
    simp [getDependents, h]

/-- Witness for C10 at the empty graph. -/
theorem query_default_empty_witness :
    getDependencies emptyGraph "nokey.ts" = ∅ ∧ getDependents emptyGraph "nokey.ts" = ∅ :=
  ⟨(query_default_empty emptyGraph "nokey.ts").1 rfl,
   (query_default_empty emptyGraph "nokey.ts").2 rfl⟩

/-- Concrete extraction oracle for the C3 scenario: the snapshot text
yields one import, every other text raises. -/
def extractC3 : String → Option (List String) :=
  fun c => if c = "srcA" then some ["./B"] else none

/-- Concrete resolver for the C3 scenario. -/
def resolverC3 : Resolver :=
  fun _ req => if req = "./B" then RawResolve.ok (some "B.ts") else RawResolve.err

/-- Graph after the last successful parse of the C3 scenario file. -/
def gSnapC3 : DepGraph :=
  processFile emptyGraph "A.ts" (some "srcA") extractC3 (some resolverC3) id

/-- Graph after reprocessing the file while its new text raises during
extraction. -/
def gFailC3 : DepGraph :=
  processFile gSnapC3 "A.ts" (some "bad") extractC3 (some resolverC3) id

/-- Counterexample to C3 as stated: "A.ts" owes its edge set {"B.ts"}
to its last successful parse, yet after a reprocessing whose extraction
raises, its forward edge set is empty rather than retained. -/
theorem extract_error_retention_counterexample :
    getDependencies gSnapC3 "A.ts" = {"B.ts"} ∧
      getDependencies gFailC3 "A.ts" = ∅ ∧
      ({"B.ts"} : Finset String) ≠ (∅ : Finset String) := by
  decide

/-- C3 amended: when extraction raises, `processFile` has already
erased the old edges and installs nothing, so the resulting graph is
exactly `removeFileEdges` of the prior state — the forward entry of the
file ends absent (empty), not equal to the last successful snapshot. -/
theorem processFile_extract_error_clears (g : DepGraph) (f content : String)
    (extract : String → Option (List String)) (resolver : Option Resolver)
    (dirname : String → String) (hx : extract content = none) :
    processFile g f (some content) extract resolver dirname = removeFileEdges g f := by
  simp only [processFile, hx]

/-- Witness for the amended C3 at concrete input. -/
theorem processFile_extract_error_clears_witness :
    processFile emptyGraph "A.ts" (some "bad") (fun _ => none) none id =
      removeFileEdges emptyGraph "A.ts" :=
  processFile_extract_error_clears emptyGraph "A.ts" "bad" (fun _ => none) none id rfl

/-- C7: a resolution miss yields no result (structurally, `resolvePath`
is a total function into `Option`, so it cannot raise), and the
resolved-dependency set recorded by `processFile` contains exactly the
successfully resolved targets — missed specifiers are omitted, the
others kept. -/
theorem resolution_miss_silent (resolver : Option Resolver) (dir req : String)
    (g : DepGraph) (f content : String) (extract : String → Option (List String))
    (dirname : String → String) (sources : List String)
    (hx : extract content = some sources) :
    resolvePath none dir req = none ∧
      (∀ r : Resolver, resolvePath (some r) dir req = none ↔
        (r dir req = RawResolve.err ∨ r dir req = RawResolve.ok none)) ∧
      (∀ t, t ∈ getDependencies (processFile g f (some content) extract resolver dirname) f ↔
        ∃ s ∈ sources, resolvePath resolver (dirname f) s = some t) := by
  refine ⟨rfl, ?_, ?_⟩
  · intro r
    unfold resolvePath
    cases hr : r dir req with
    | err => simp [hr]
    | ok fp =>
      cases fp with
      | none => simp [hr]
      | some p => simp [hr]
  · intro t
    simp only [processFile, hx]
    rw [getDeps_installEdges, if_pos rfl]
    simp [List.mem_toFinset, List.mem_filterMap]

/-- Concrete resolver for the C7 witness: resolves "./b" only. -/
def resolverC7 : Resolver :=
  fun _ req => if req = "./b" then RawResolve.ok (some "b.ts") else RawResolve.err

/-- Witness for C7: with one resolvable and one unresolvable specifier,
the resolvable edge is recorded. -/
theorem resolution_miss_silent_witness :
    "b.ts" ∈ getDependencies
      (processFile emptyGraph "a.ts" (some "src") (fun _ => some ["./b", "lodash"])
        (some resolverC7) id) "a.ts" :=
  ((resolution_miss_silent (some resolverC7) "d" "r" emptyGraph "a.ts" "src"
      (fun _ => some ["./b", "lodash"]) id ["./b", "lodash"] rfl).2.2 "b.ts").mpr
    ⟨"./b", by decide, by decide⟩

/-- Scan-session state of `DependencyGraph`: the completion flag
(field `initialized` of the source), the memoized in-flight promise
(field `initPromise`, modelled by the identifying number of the scan it
tracks), and a counter of scans started so far which doubles as the
source of fresh handles. -/
structure ScanState where
  initDone : Bool
  initPromise : Option Nat
  scansStarted : Nat
deriving DecidableEq

/-- Embeds `DependencyGraph.initialize`: when a promise is in flight it
is returned as is; otherwise a fresh scan starts, is memoized and
returned. -/
def initScan (s : ScanState) : Nat × ScanState :=
  match s.initPromise with
  | some h => (h, s)
  | none =>
    (s.scansStarted,
      { initDone := s.initDone
        initPromise := some s.scansStarted
        scansStarted := s.scansStarted + 1 })

/-- Embeds the completion tail of `DependencyGraph._doInitialize`: the
flag flips to true and the memoized promise is cleared. -/
def completeScan (s : ScanState) : ScanState :=
  { initDone := true, initPromise := none, scansStarted := s.scansStarted }

/-- C5: while a scan is in flight, a further call returns the same
handle and changes nothing (no second scan starts); completion sets the
flag and clears the handle, after which a forced re-scan starts a fresh
session with a new handle. -/
theorem initScan_shared (s : ScanState) (k : Nat) (hin : s.initPromise = some k) :
    initScan s = (k, s) ∧
      (completeScan s).initDone = true ∧
      (completeScan s).initPromise = none ∧
      (initScan (completeScan s)).2.initPromise = some (initScan (completeScan s)).1 ∧
      (initScan (completeScan s)).2.scansStarted = s.scansStarted + 1 := by
  refine ⟨?_, rfl, rfl, rfl, rfl⟩
  simp [initScan, hin]

/-- Witness for C5 at a concrete in-flight state. -/
theorem initScan_shared_witness :
    initScan ⟨false, some 0, 1⟩ = (0, ⟨false, some 0, 1⟩) ∧
      (completeScan ⟨false, some 0, 1⟩).initDone = true ∧
      (completeScan ⟨false, some 0, 1⟩).initPromise = none ∧
      (initScan (completeScan ⟨false, some 0, 1⟩)).2.initPromise =
        some (initScan (completeScan ⟨false, some 0, 1⟩)).1 ∧
      (initScan (completeScan ⟨false, some 0, 1⟩)).2.scansStarted = 1 + 1 :=
  initScan_shared ⟨false, some 0, 1⟩ 0 rfl

/-- Concurrency cap of the bulk scan (`const CONCURRENCY = 10`). -/
def CONCURRENCY : Nat := 10

/-- Fuel-indexed form of the slicing loop of `_doInitialize`: while
files remain, the next `k` files form one batch and iteration continues
after them.  The fuel starts at the length of the file list, which
bounds the number of loop iterations exactly as the loop condition
`i < allFiles.length` does. -/
def chunkAux (fuel : Nat) (files : List String) (k : Nat) : List (List String) :=
  match fuel, files with
  | 0, _ => []
  | _, [] => []
  | n + 1, f :: fs => (f :: fs).take k :: chunkAux n ((f :: fs).drop k) k

/-- Batches of the bulk scan: `allFiles.slice(i, i + CONCURRENCY)` for
i = 0, K, 2K, ...; batches are awaited one after the other, so the
files of the current batch are exactly the pipelines in flight. -/
def chunkBatches (files : List String) (k : Nat) : List (List String) :=
  chunkAux files.length files k

theorem chunkAux_spec (k : Nat) (hk : 0 < k) :
    ∀ (fuel : Nat) (files : List String), files.length ≤ fuel →
      (∀ b ∈ chunkAux fuel files k, b.length ≤ k) ∧
        (chunkAux fuel files k).flatten = files := by
  intro fuel
  induction fuel with
  | zero =>
    intro files hf
    have hnil : files = [] := List.eq_nil_of_length_eq_zero (Nat.le_zero.mp hf)
    subst hnil
    simp [chunkAux]
  | succ n ih =>
    intro files hf
    cases files with
    | nil => simp [chunkAux]
    | cons f fs =>
      have hlen : ((f :: fs).drop k).length ≤ n := by
        rw [List.length_drop]
        have hfl : (f :: fs).length ≤ n + 1 := hf
        omega
      obtain ⟨ih1, ih2⟩ := ih ((f :: fs).drop k) hlen
      constructor
      · intro b hb
        simp only [chunkAux, List.mem_cons] at hb
        cases hb with
        | inl h =>
          subst h
          rw [List.length_take]
          exact min_le_left k _
        | inr h => exact ih1 b h
      · simp only [chunkAux, List.flatten_cons]
        rw [ih2, List.take_append_drop]

/-- C8: the bulk scan processes the discovered files in batches of at
most `CONCURRENCY = 10`, the batches awaited one after the other cover
exactly the file list in order, so at no point are more than ten
parse/resolve pipelines in flight. -/
theorem scan_batches_bound (files : List String) :
    (∀ b ∈ chunkBatches files CONCURRENCY, b.length ≤ CONCURRENCY) ∧
      (chunkBatches files CONCURRENCY).flatten = files :=
  chunkAux_spec CONCURRENCY (by decide) files.length files (Nat.le_refl _)

/-- Witness for C8 on a concrete file list. -/
theorem scan_batches_bound_witness :
    (["a.ts", "b.ts"] : List String).length ≤ CONCURRENCY ∧
      (chunkBatches ["a.ts", "b.ts"] CONCURRENCY).flatten = ["a.ts", "b.ts"] :=
  ⟨(scan_batches_bound ["a.ts", "b.ts"]).1 ["a.ts", "b.ts"] (by decide),
   (scan_batches_bound ["a.ts", "b.ts"]).2⟩

/-!
Parser service (`TreeSitterParser`, cache-owning variant): the
single-slot-per-language parse-tree cache `treeCache`, keyed by a djb2
hash of the exact source text.  A syntax tree is modelled by the exact
text it was parsed from; the structural query over it is an opaque
function parameter.  `parseCount` counts invocations of the underlying
parser, the side channel through which a second parse would be
observable.
-/

/-- Coerces an integer to the signed 32-bit value produced by the
bitwise-or-zero operation of the source. -/
def toInt32 (x : Int) : Int := (x + 2 ^ 31) % 2 ^ 32 - 2 ^ 31

/-- UTF-16 code units of a string, the units `charCodeAt` walks. -/
def utf16Units (s : String) : List Nat :=
  (s.data.map fun ch =>
    let n := ch.toNat
    if n < 65536 then [n]
    else [55296 + (n - 65536) / 1024, 56320 + (n - 65536) % 1024]).flatten

/-- Embeds `hashContent`, the djb2 hash: starting from 5381, each step
computes `((hash << 5) + hash + charCode) | 0` in 32-bit arithmetic. -/
def hashContent (content : String) : Int :=
  (utf16Units content).foldl (fun h ch => toInt32 (toInt32 (h * 32) + h + (ch : Int))) 5381

/-- A retained syntax tree, identified by the exact source text it was
parsed from. -/
structure PTree where
  content : String
deriving DecidableEq

/-- Parser-service state relevant to the cache: which language grammars
are available, the per-language single-slot tree cache (hash tag plus
tree), and the number of parses performed so far. -/
structure ParserState where
  parsers : String → Bool
  treeCache : String → Option (Int × PTree)
  parseCount : Nat

/-- Fresh parser-service state in which every grammar loads. -/
def initParserState : ParserState :=
  { parsers := fun _ => true
    treeCache := fun _ => none
    parseCount := 0 }

/-- State change of a cache miss: the old tree for the language is
released and replaced by the freshly parsed one tagged with the hash of
its text, and the parse counter ticks. -/
def parseMiss (st : ParserState) (langId content : String) : ParserState :=
  { parsers := st.parsers
    treeCache := fun l =>
      if l = langId then some (hashContent content, ⟨content⟩) else st.treeCache l
    parseCount := st.parseCount + 1 }

/-- Embeds `parseWithCache`: no parser for the language yields no tree;
a cached tree whose hash tag equals the hash of the text is returned as
is; otherwise the text is parsed, cached and returned. -/
def parseWithCache (st : ParserState) (langId content : String) :
    Option PTree × ParserState :=
  if st.parsers langId = true then
    match st.treeCache langId with
    | some (hc, t) =>
      if hc = hashContent content then (some t, st)
      else (some ⟨content⟩, parseMiss st langId content)
    | none => (some ⟨content⟩, parseMiss st langId content)
  else (none, st)

/-- Embeds `getLangId`: language id from the file-path suffix. -/
def getLangId (filePath : String) : Option String :=
  if filePath.endsWith ".ts" then some "typescript"
  else if filePath.endsWith ".tsx" then some "typescriptreact"
  else if filePath.endsWith ".js" || filePath.endsWith ".jsx" then some "javascript"
  else if filePath.endsWith ".vue" then some "vue"
  else none

/-- Parse-then-query body of `extractImports` for a concrete language:
no tree means no imports, otherwise the structural query runs over the
returned tree. -/
def extractImportsCore (query : String → PTree → List String) (st : ParserState)
    (langId content : String) : List String × ParserState :=
  match parseWithCache st langId content with
  | (none, st2) => ([], st2)
  | (some t, st2) => (query langId t, st2)

/-- Embeds `extractImports`: resolves the language id from the path; a
single-file-component source first has its script region extracted
(`vueScript` stands for the bracketing-tag search) and re-enters with
the embedded language id (the source recurses with the dummy path
"foo.tsx", resolving to "typescriptreact"). -/
def extractImports (query : String → PTree → List String)
    (vueScript : String → Option String) (st : ParserState)
    (content filePath : String) : List String × ParserState :=
  match getLangId filePath with
  | none => ([], st)
  | some lid =>
    if lid = "vue" then
      match vueScript content with
      | some sc => extractImportsCore query st "typescriptreact" sc
      | none => ([], st)
    else
      extractImportsCore query st lid content

/-- Runs a sequence of (language id, content) parse requests from the
fresh parser state. -/
def runParser (ops : List (String × String)) : ParserState :=
  ops.foldl (fun st p => (parseWithCache st p.1 p.2).2) initParserState

theorem parseWithCache_not_loaded (st : ParserState) (l c : String)
    (hp : st.parsers l = false) : parseWithCache st l c = (none, st) := by
  unfold parseWithCache
  simp [hp]

theorem parseWithCache_hit (st : ParserState) (l c : String) (hcv : Int) (t : PTree)
    (hp : st.parsers l = true) (hc : st.treeCache l = some (hcv, t))
    (hh : hcv = hashContent c) : parseWithCache st l c = (some t, st) := by
  unfold parseWithCache
  simp [hp, hc, hh]

theorem parseWithCache_missNone (st : ParserState) (l c : String)
    (hp : st.parsers l = true) (hc : st.treeCache l = none) :
    parseWithCache st l c = (some ⟨c⟩, parseMiss st l c) := by
  unfold parseWithCache
  simp [hp, hc]

theorem parseWithCache_missHash (st : ParserState) (l c : String) (hcv : Int) (t : PTree)
    (hp : st.parsers l = true) (hc : st.treeCache l = some (hcv, t))
    (hh : hcv ≠ hashContent c) :
    parseWithCache st l c = (some ⟨c⟩, parseMiss st l c) := by
  unfold parseWithCache
  simp [hp, hc, hh]

/-- Cache entries are always tagged with the hash of the exact text the
cached tree was parsed from. -/
def CacheTagged (st : ParserState) : Prop :=
  ∀ l (h : Int) (t : PTree), st.treeCache l = some (h, t) → h = hashContent t.content

theorem cacheTagged_parseWithCache (st : ParserState) (l c : String)
    (hst : CacheTagged st) : CacheTagged (parseWithCache st l c).2 := by
  by_cases hp : st.parsers l = true
  · cases hc : st.treeCache l with
    | none =>
      rw [parseWithCache_missNone st l c hp hc]
      intro l2 h2 t2 ht
      by_cases hl : l2 = l
      · simp only [parseMiss, hl, if_pos] at ht
        obtain ⟨rfl, rfl⟩ := Prod.mk.injEq .. ▸ Option.some.inj ht
        rfl
      · simp only [parseMiss, hl, if_neg, if_false] at ht
        exact hst l2 h2 t2 ht
    | some p =>
      obtain ⟨hcv, t⟩ := p
      by_cases hh : hcv = hashContent c
      · rw [parseWithCache_hit st l c hcv t hp hc hh]
        exact hst
      · rw [parseWithCache_missHash st l c hcv t hp hc hh]
        intro l2 h2 t2 ht
        by_cases hl : l2 = l
        · simp only [parseMiss, hl, if_pos] at ht
          obtain ⟨rfl, rfl⟩ := Prod.mk.injEq .. ▸ Option.some.inj ht
          rfl
        · simp only [parseMiss, hl, if_neg, if_false] at ht
          exact hst l2 h2 t2 ht
  · have hp2 : st.parsers l = false := by simpa using hp
    rw [parseWithCache_not_loaded st l c hp2]
    exact hst

theorem cacheTagged_runParser (ops : List (String × String)) : CacheTagged (runParser ops) := by
  have base : CacheTagged initParserState := by
    intro l h t ht
    simp [initParserState] at ht
  have step : ∀ (l : List (String × String)) (st : ParserState), CacheTagged st →
      CacheTagged (l.foldl (fun st p => (parseWithCache st p.1 p.2).2) st) := by
    intro l
    induction l with
    | nil => intro st hst; exact hst
    | cons p rest ih =>
      intro st hst
      exact ih _ (cacheTagged_parseWithCache st p.1 p.2 hst)
  exact step ops initParserState base

theorem parseWithCache_twice (st : ParserState) (l c : String) :
    parseWithCache (parseWithCache st l c).2 l c = parseWithCache st l c := by
  by_cases hp : st.parsers l = true
  · cases hc : st.treeCache l with
    | none =>
      rw [parseWithCache_missNone st l c hp hc]
      exact parseWithCache_hit (parseMiss st l c) l c (hashContent c) ⟨c⟩ hp
        (by simp [parseMiss]) rfl
    | some p =>
      obtain ⟨hcv, t⟩ := p
      by_cases hh : hcv = hashContent c
      · rw [parseWithCache_hit st l c hcv t hp hc hh]
        exact parseWithCache_hit st l c hcv t hp hc hh
      · rw [parseWithCache_missHash st l c hcv t hp hc hh]
        exact parseWithCache_hit (parseMiss st l c) l c (hashContent c) ⟨c⟩ hp
          (by simp [parseMiss]) rfl
  · have hp2 : st.parsers l = false := by simpa using hp
    rw [parseWithCache_not_loaded st l c hp2]
    exact parseWithCache_not_loaded st l c hp2

theorem extractImportsCore_twice (query : String → PTree → List String)
    (st : ParserState) (langId content : String) :
    extractImportsCore query (extractImportsCore query st langId content).2 langId content =
      extractImportsCore query st langId content := by
  have h2 := parseWithCache_twice st langId content
  unfold extractImportsCore
  cases hp : parseWithCache st langId content with
  | mk ot st2 =>
    rw [hp] at h2
    cases ot with
    | none =>
      simp only
      rw [h2]
    | some t =>
      simp only
      rw [h2]

theorem extractImports_twice (query : String → PTree → List String)
    (vueScript : String → Option String) (st : ParserState) (content filePath : String) :
    extractImports query vueScript (extractImports query vueScript st content filePath).2
        content filePath =
      extractImports query vueScript st content filePath := by
  unfold extractImports
  cases hl : getLangId filePath with
  | none => simp
  | some lid =>
    by_cases hv : lid = "vue"
    · subst hv
      simp only [if_pos rfl]
      cases hs : vueScript content with
      | none => simp
      | some sc =>
        simp only
        exact extractImportsCore_twice query st "typescriptreact" sc
    · simp only [if_neg hv]
      exact extractImportsCore_twice query st lid content

theorem parseWithCache_tag_after (st : ParserState) (l c : String)
    (hp : st.parsers l = true) :
    ∃ t : PTree, (parseWithCache st l c).2.treeCache l = some (hashContent c, t) ∧
      (parseWithCache st l c).2.parsers l = true := by
  cases hc : st.treeCache l with
  | none =>
    rw [parseWithCache_missNone st l c hp hc]
    exact ⟨⟨c⟩, by simp [parseMiss], hp⟩
  | some p =>
    obtain ⟨hcv, t⟩ := p
    by_cases hh : hcv = hashContent c
    · rw [parseWithCache_hit st l c hcv t hp hc hh]
      exact ⟨t, by rw [hc, hh], hp⟩
    · rw [parseWithCache_missHash st l c hcv t hp hc hh]
      exact ⟨⟨c⟩, by simp [parseMiss], hp⟩

/-- Parser state after parsing "aZ" for typescript. -/
def stAZ : ParserState := (parseWithCache initParserState "typescript" "aZ").2

/-- Counterexample to C2 as stated: "aZ" and "b9" are different texts
with equal djb2 hashes, so parsing "b9" right after "aZ" for the same
language is served the retained tree of "aZ" — a tree belonging to the
other text. -/
theorem parse_cache_collision_counterexample :
    ("aZ" : String) ≠ "b9" ∧
      hashContent "aZ" = hashContent "b9" ∧
      (parseWithCache stAZ "typescript" "b9").1 = some ⟨"aZ"⟩ := by
  decide

/-- C2 amended: per language the cache retains at most one tree (the
slot is single-valued by construction) tagged with the hash of the
exact text it was parsed from; extracting imports twice from the same
exact text returns the same result with the parser state — and hence
the parse counter — unchanged by the second call; a cache hit requires
exact hash equality, a differing hash forces a fresh parse; and two
different texts with DIFFERENT hashes never share a tree.  (As stated
the claim fails: two different texts whose 32-bit djb2 hashes collide
can be served the tree of the other, see the counterexample.) -/
theorem parse_cache_correct (ops : List (String × String)) (l c c2 : String) :
    (∀ (h : Int) (t : PTree), (runParser ops).treeCache l = some (h, t) →
      h = hashContent t.content) ∧
      (∀ (query : String → PTree → List String) (vueScript : String → Option String)
        (st : ParserState) (filePath : String),
        extractImports query vueScript (extractImports query vueScript st c filePath).2
            c filePath =
          extractImports query vueScript st c filePath) ∧
      (∀ (st : ParserState) (h : Int) (t : PTree), st.treeCache l = some (h, t) →
        st.parsers l = true →
        (h = hashContent c → parseWithCache st l c = (some t, st)) ∧
        (h ≠ hashContent c →
          (parseWithCache st l c).1 = some ⟨c⟩ ∧
          (parseWithCache st l c).2.parseCount = st.parseCount + 1)) ∧
      (hashContent c2 ≠ hashContent c →
        (parseWithCache (parseWithCache (runParser ops) l c2).2 l c).1 ≠ some ⟨c2⟩) := by
  refine ⟨fun h t ht => cacheTagged_runParser ops l h t ht,
    fun query vueScript st filePath => extractImports_twice query vueScript st c filePath,
    ?_, ?_⟩
  · intro st h t hc hp
    constructor
    · intro hh
      exact parseWithCache_hit st l c h t hp hc hh
    · intro hh
      rw [parseWithCache_missHash st l c h t hp hc hh]
      exact ⟨rfl, rfl⟩
  · intro hneq heq
    by_cases hp : (runParser ops).parsers l = true
    · obtain ⟨t1, hcache, hp1⟩ := parseWithCache_tag_after (runParser ops) l c2 hp
      rw [parseWithCache_missHash (parseWithCache (runParser ops) l c2).2 l c
        (hashContent c2) t1 hp1 hcache hneq] at heq
      have hcc : c = c2 := congrArg PTree.content (Option.some.inj heq)
      exact hneq (by rw [hcc])
    · have hp2 : (runParser ops).parsers l = false := by simpa using hp
      have h1 : (parseWithCache (runParser ops) l c2).2 = runParser ops := by
        rw [parseWithCache_not_loaded _ l c2 hp2]
      rw [h1, parseWithCache_not_loaded _ l c hp2] at heq
      exact Option.noConfusion heq

/-- Witness for the amended C2: with distinct hashes, the second parse
is never served the tree of the first text. -/
theorem parse_cache_correct_witness :
    (parseWithCache (parseWithCache (runParser []) "typescript" "x").2 "typescript" "y").1 ≠
      some ⟨"x"⟩ :=
  (parse_cache_correct [] "typescript" "y" "x").2.2.2 (by decide)

end DepGraphSpec
